import Mathlib

/-!
Verification development for the asynchronous task/progress-tracking core of
the social-media downloader service (src/main.py).

The mutable registry `DOWNLOAD_TASKS` maps a task id to a dict of fields; the
background job functions `download_video` and `batch_download` write a
sequence of field updates into that dict, and the HTTP handlers
`get_download_progress` and `download_completed_file` read it.  We embed a
task dict as the structure `Vid.Task`, a background job as the list of
successive registry states it writes (one list entry per contiguous block of
dict assignments in the source), and each read handler as a function from
the registry (an association list) to its updated registry and response.

Numeric percentages are embedded as rationals, the status strings as the
inductive `Vid.Status` (rendered back to the exact source strings by
`Vid.statusString`), and the external engines (yt-dlp, ffmpeg) as explicit
parameters: the fetch engine by the list of progress-hook events it fires
and its final outcome, the transcoding engine by a function from the
requested action to an `Except` outcome.
-/

namespace Vid

/-- Status values written into a task's `status` field by src/main.py.  The
source stores raw strings; constructor `downloadingBatch i n` stands for the
batch loop's interpolated string (see `statusString`). -/
inductive Status
  | starting
  | downloading
  | post_processing
  | finished
  | completed
  | error
  | downloadingBatch (i n : Nat)
deriving DecidableEq, Repr

/-- The exact string the source stores for each status value. -/
def statusString : Status → String
  | .starting => "starting"
  | .downloading => "downloading"
  | .post_processing => "post_processing"
  | .finished => "finished"
  | .completed => "completed"
  | .error => "error"
  | .downloadingBatch i n => "downloading " ++ toString i ++ "/" ++ toString n

/-- Terminal statuses, i.e. membership in the source's list
`['completed', 'error']` (lines 868 and 980-991 of src/main.py). -/
def isTerminal : Status → Bool
  | .completed => true
  | .error => true
  | _ => false

/-- One entry of a batch task's `errors` list: `{'url': ..., 'error': ...}`. -/
structure ErrorEntry where
  url : String
  message : String
deriving DecidableEq, Repr

/-- One entry of a batch task's `files` list: either
`{'title': ..., 'status': 'completed'}` or
`{'url': ..., 'status': 'error', 'error': ...}`. -/
inductive FileEntry
  | completedItem (title : String)
  | errorItem (url : String) (message : String)
deriving DecidableEq, Repr

/-- A task record, the value stored in `DOWNLOAD_TASKS[task_id]`.  Fields the
source dict may lack (`filename` and `error` for batch tasks, the batch
fields for single tasks) are embedded as `Option`/empty values. -/
structure Task where
  status : Status
  progress : ℚ
  filename : Option String
  error : Option String
  start_time : ℚ
  post_processing : Bool
  total_files : Option Nat
  completed_files : Option Nat
  files : List FileEntry
  errors : List ErrorEntry
deriving DecidableEq, Repr

/-- Default task used only as the default of `List.getLastD`. -/
def emptyTask : Task :=
  { status := .starting, progress := 0, filename := none, error := none,
    start_time := 0, post_processing := false, total_files := none,
    completed_files := none, files := [], errors := [] }

/-- The initial single-download task dict (src/main.py lines 380-387). -/
def mkSingleTask (start_time : ℚ) (pp : Bool) : Task :=
  { status := .starting, progress := 0, filename := some "", error := none,
    start_time := start_time, post_processing := pp, total_files := none,
    completed_files := none, files := [], errors := [] }

/-- The initial batch task dict (src/main.py lines 500-510); note it has no
`filename` and no `error` key. -/
def mkBatchTask (start_time : ℚ) (pp : Bool) (n : Nat) : Task :=
  { status := .starting, progress := 0, filename := none, error := none,
    start_time := start_time, post_processing := pp, total_files := some n,
    completed_files := some 0, files := [], errors := [] }

/-- One invocation of the yt-dlp progress hook.  `downloading percent file`
is a hook dict with `status == 'downloading'`; `percent = none` embeds a
`_percent_str` whose `float(...)` parse raises (the source catches the error
and leaves the task untouched).  `finished file` is a hook dict with
`status == 'finished'`. -/
inductive HookEvent
  | downloading (percent : Option ℚ) (filename : String)
  | finished (filename : String)
deriving DecidableEq, Repr

/-- The body of `progress_hook` (src/main.py lines 389-406) as a transition
on the task record.  `post_process` is the truthiness of the enclosing
`download_video`'s `post_process` argument. -/
def progress_hook (post_process : Bool) (d : HookEvent) (t : Task) : Task :=
  match d with
  | .downloading (some p) fname =>
      { t with progress := p * (7 / 10), status := .downloading,
               filename := some fname }
  | .downloading none _ => t
  | .finished fname =>
      if post_process then
        { t with status := .post_processing, progress := 70,
                 filename := some fname }
      else
        { t with status := .finished, progress := 100,
                 filename := some fname }

/-- The successive task states produced by firing a list of hook events. -/
def hookTrace (pp : Bool) (t : Task) : List HookEvent → List Task
  | [] => []
  | e :: rest =>
      progress_hook pp e t :: hookTrace pp (progress_hook pp e t) rest

/-- The `action` key of a post-process configuration dict; `other` is any
string not matched by `_apply_post_processing`'s dispatch. -/
inductive PPAction
  | compress
  | extract_audio
  | convert
  | trim
  | watermark
  | other
deriving DecidableEq, Repr

/-- The transcoding engine: for each dispatched action, either the produced
output path or the exception message raised by the FFmpegProcessor call. -/
def PPEngine := PPAction → Except String String

/-- Embedding of `_apply_post_processing` (src/main.py lines 461-496): the
matched action invokes the engine, an unmatched action returns the input
unchanged, and any engine exception is caught and the original filename
returned. -/
def apply_post_processing (filename : String) (action : PPAction)
    (engine : PPEngine) : String :=
  match action with
  | .other => filename
  | a =>
      match engine a with
      | .ok out => out
      | .error _ => filename

/-- Outcome of the fetch phase (`ydl.extract_info(url, download=True)`):
the hook events fired during it, then either the prepared filename and the
title, or the exception message. -/
inductive FetchResult
  | ok (events : List HookEvent) (filename : String) (title : String)
  | err (events : List HookEvent) (message : String)
deriving Repr

/-- The hook events fired during a fetch. -/
def fetchEvents : FetchResult → List HookEvent
  | .ok events _ _ => events
  | .err events _ => events

/-- Embedding of `download_video` with a task id (src/main.py lines
377-459): the list of successive registry states written for that task, one
entry per contiguous block of assignments.  The first state is the initial
dict, then one state per hook event, then the tail written after
`extract_info` returns (custom post-processing at lines 436-445, the plain
completion at lines 449-452, or the error handler at lines 456-458). -/
def download_video (post_process : Option PPAction) (ffmpeg_available : Bool)
    (engine : PPEngine) (start_time : ℚ) (fetch : FetchResult) : List Task :=
  let t0 := mkSingleTask start_time post_process.isSome
  match fetch with
  | .err events msg =>
      let hs := hookTrace post_process.isSome t0 events
      let tl := hs.getLastD t0
      t0 :: hs ++ [{ tl with status := .error, error := some msg }]
  | .ok events filename _title =>
      let hs := hookTrace post_process.isSome t0 events
      let tl := hs.getLastD t0
      match post_process with
      | some action =>
          if ffmpeg_available then
            let tA := { tl with status := .post_processing, progress := 75 }
            let processed := apply_post_processing filename action engine
            t0 :: hs ++
              [tA, { tA with progress := 100, status := .completed,
                             filename := some processed }]
          else
            t0 :: hs ++ [{ tl with status := .completed,
                                   filename := some filename,
                                   progress := 100 }]
      | none =>
          t0 :: hs ++ [{ tl with status := .completed,
                                 filename := some filename,
                                 progress := 100 }]

/-- Whether `download_video` reaches the call to `_apply_post_processing`
(the guard `post_process and self.ffmpeg_processor.ffmpeg_available` at
src/main.py line 435, reached only when `extract_info` did not raise). -/
def post_process_attempted (post_process : Option PPAction)
    (ffmpeg_available : Bool) (fetch : FetchResult) : Bool :=
  match fetch with
  | .ok _ _ _ => post_process.isSome && ffmpeg_available
  | .err _ _ => false

/-- Outcome of one batch item's inner `download_video` call (made without a
task id, so it touches no registry entry). -/
inductive ItemResult
  | ok (filename : String) (title : String)
  | err (message : String)
deriving Repr

/-- One iteration of the batch loop (src/main.py lines 515-534): the status
write before the download, then the success block (lines 523-526) or the
error block (lines 532-534).  Returns the states written and the resulting
task. -/
def batchStep (n i : Nat) (url : String) (r : ItemResult) (t : Task) :
    List Task × Task :=
  let t1 := { t with status := .downloadingBatch (i + 1) n }
  match r with
  | .ok _ title =>
      let t2 := { t1 with
        completed_files := some (i + 1),
        progress := (((i + 1 : Nat) : ℚ) / (n : ℚ)) * 100,
        files := t1.files ++ [.completedItem title] }
      ([t1, t2], t2)
  | .err msg =>
      let t2 := { t1 with
        errors := t1.errors ++ [{ url := url, message := msg }],
        files := t1.files ++ [.errorItem url msg] }
      ([t1, t2], t2)

/-- The whole batch loop, iterating the indexed URL list. -/
def batchLoop (n : Nat) : Nat → Task → List (String × ItemResult) →
    List Task × Task
  | _, t, [] => ([], t)
  | i, t, (url, r) :: rest =>
      let s := batchStep n i url r t
      let next := batchLoop n (i + 1) s.2 rest
      (s.1 ++ next.1, next.2)

/-- Embedding of `batch_download` with a task id (src/main.py lines
498-540): the initial dict, the loop's states, then the final block (lines
536-538) setting status `completed` and progress 100. -/
def batch_download (items : List (String × ItemResult)) (start_time : ℚ)
    (pp : Bool) : List Task :=
  let t0 := mkBatchTask start_time pp items.length
  let lp := batchLoop items.length 0 t0 items
  t0 :: lp.1 ++ [{ lp.2 with status := .completed, progress := 100 }]

/-- A background job: a single download or a batch. -/
inductive Run
  | single (post_process : Option PPAction) (ffmpeg_available : Bool)
      (engine : PPEngine) (start_time : ℚ) (fetch : FetchResult)
  | batch (items : List (String × ItemResult)) (start_time : ℚ) (pp : Bool)

/-- The registry states a job writes for its task, in order. -/
def traceOf : Run → List Task
  | .single pp ffmpeg engine st fetch => download_video pp ffmpeg engine st fetch
  | .batch items st pp => batch_download items st pp

/-- Whether the job was submitted with a post-process configuration. -/
def ppRequested : Run → Bool
  | .single pp _ _ _ _ => pp.isSome
  | .batch _ _ pp => pp

/-- Decidable check that a list of rationals is non-decreasing. -/
def nondecreasing : List ℚ → Bool
  | [] => true
  | [_] => true
  | a :: b :: l => decide (a ≤ b) && nondecreasing (b :: l)

/-- Decidable check that the `progress` fields along a state list never
decrease. -/
def progressMono : List Task → Bool
  | [] => true
  | [_] => true
  | a :: b :: l => decide (a.progress ≤ b.progress) && progressMono (b :: l)

/-- Decidable check that once a state in the list is terminal, every later
state is identical to it (terminal fields are frozen). -/
def frozenOnceTerminal : List Task → Bool
  | [] => true
  | t :: rest =>
      (!isTerminal t.status || rest.all fun u => decide (u = t)) &&
        frozenOnceTerminal rest

/-- The parseable percentages of the downloading hook events, in order. -/
def percentsOf : List HookEvent → List ℚ
  | [] => []
  | .downloading (some p) _ :: rest => p :: percentsOf rest
  | _ :: rest => percentsOf rest

/-- Decidable check that a percentage list is non-decreasing starting from
`prev` and stays at most 100. -/
def chainFrom (prev : ℚ) : List ℚ → Bool
  | [] => true
  | p :: rest => decide (prev ≤ p) && decide (p ≤ 100) && chainFrom p rest

/-- Whether some hook event is a downloading event with a parseable
percentage. -/
def hasParsedDownloading : List HookEvent → Bool
  | [] => false
  | .downloading (some _) _ :: _ => true
  | _ :: rest => hasParsedDownloading rest

/-- Decidable check that no parseable downloading event follows a finished
event (the fetch engine does not restart its percentage after reporting
completion). -/
def noDownloadingAfterFinished : List HookEvent → Bool
  | [] => true
  | .finished _ :: rest =>
      !hasParsedDownloading rest && noDownloadingAfterFinished rest
  | _ :: rest => noDownloadingAfterFinished rest

/-- A well-behaved fetch engine: percentages are reported non-decreasingly
within [0, 100] and do not restart after a finished report. -/
def goodEvents (events : List HookEvent) : Bool :=
  chainFrom 0 (percentsOf events) && noDownloadingAfterFinished events

/-- A run whose fetch engine is well-behaved (batch items never touch the
batch task's progress, so batch runs need no condition). -/
def goodRun : Run → Bool
  | .single _ _ _ _ fetch => goodEvents (fetchEvents fetch)
  | .batch _ _ _ => true

/-- The `files` list entry recorded for one batch item. -/
def itemEntry : String × ItemResult → FileEntry
  | (_, .ok _ title) => .completedItem title
  | (url, .err msg) => .errorItem url msg

/-- The `errors` list entry recorded for one batch item, if it failed. -/
def itemError : String × ItemResult → Option ErrorEntry
  | (url, .err msg) => some { url := url, message := msg }
  | _ => none

/-- Number of failing items of a batch. -/
def failCount (items : List (String × ItemResult)) : Nat :=
  items.countP fun p =>
    match p.2 with
    | .err _ => true
    | _ => false

/-- The 1-based position (counting from `i + 1`) of the last successful
item, if any: the value `completed_files` holds after the loop. -/
def last_success_index (i : Nat) : List (String × ItemResult) → Option Nat
  | [] => none
  | (_, .ok _ _) :: rest =>
      some ((last_success_index (i + 1) rest).getD (i + 1))
  | (_, .err _) :: rest => last_success_index (i + 1) rest

/-- Response of the progress-poll endpoint `/api/progress/<task_id>`. -/
inductive ProgressResponse
  | taskNotFound404
  | taskExpired404
  | ok (t : Task)
deriving DecidableEq, Repr

/-- Response of the file-retrieval endpoint `/api/download/file/<task_id>`. -/
inductive FileResponse
  | taskNotFound404
  | notCompleted400
  | fileNotFound404
  | sendFile (path : String)
deriving DecidableEq, Repr

/-- Registry lookup, `task_id in DOWNLOAD_TASKS` plus the read. -/
def lookupTask (tasks : List (String × Task)) (task_id : String) :
    Option Task :=
  match tasks.find? fun p => p.1 == task_id with
  | some p => some p.2
  | none => none

/-- Registry deletion, `del DOWNLOAD_TASKS[task_id]`. -/
def removeTask (tasks : List (String × Task)) (task_id : String) :
    List (String × Task) :=
  tasks.filter fun p => !(p.1 == task_id)

/-- Embedding of `get_download_progress` (src/main.py lines 859-877): the
registry after the call and the response.  `now` is `datetime.now()`; the
stored iso timestamp is embedded as the rational `start_time`, whose parse
always succeeds. -/
def get_download_progress (tasks : List (String × Task)) (task_id : String)
    (now : ℚ) : List (String × Task) × ProgressResponse :=
  match lookupTask tasks task_id with
  | none => (tasks, .taskNotFound404)
  | some task =>
      if isTerminal task.status && decide (now - task.start_time > 3600) then
        (removeTask tasks task_id, .taskExpired404)
      else
        (tasks, .ok task)

/-- Embedding of `download_completed_file` (src/main.py lines 879-898):
`onDisk` is the set of paths for which `os.path.exists` holds.  The handler
never deletes registry entries, so the returned registry is the input. -/
def download_completed_file (tasks : List (String × Task)) (onDisk : List String)
    (task_id : String) : List (String × Task) × FileResponse :=
  match lookupTask tasks task_id with
  | none => (tasks, .taskNotFound404)
  | some task =>
      if task.status ≠ Status.completed then
        (tasks, .notCompleted400)
      else
        match task.filename with
        | none => (tasks, .fileNotFound404)
        | some f =>
            if f == "" || !onDisk.contains f then
              (tasks, .fileNotFound404)
            else
              (tasks, .sendFile f)

/-- Statuses a single-download task can hold (never the batch form). -/
def singleStatusOk : Status → Bool
  | .downloadingBatch _ _ => false
  | _ => true

/-- The status strings a run can ever store, per kind of run. -/
def allowedStatusStrings : Run → List String
  | .single _ _ _ _ _ =>
      ["starting", "downloading", "post_processing", "finished",
       "completed", "error"]
  | .batch items _ _ =>
      "starting" :: "completed" ::
        (List.range items.length).map fun j =>
          "downloading " ++ toString (j + 1) ++ "/" ++ toString items.length

end Vid

namespace Vid

lemma progressMono_snoc (x : Task) :
    ∀ (l : List Task) (a : Task),
      progressMono (a :: l) = true →
      (l.getLastD a).progress ≤ x.progress →
      progressMono ((a :: l) ++ [x]) = true
  | [], a, _, h2 => by
      simp only [List.getLastD] at h2
      simp [progressMono, h2]
  | b :: l, a, h1, h2 => by
      rw [List.getLastD_cons] at h2
      simp only [progressMono, Bool.and_eq_true, decide_eq_true_eq] at h1
      have hrec := progressMono_snoc x l b h1.2 h2
      simp only [List.cons_append] at hrec ⊢
      simp [progressMono, h1.1, hrec]

lemma frozen_snoc (x : Task) :
    ∀ (l : List Task),
      (l.all fun s => !isTerminal s.status) = true →
      frozenOnceTerminal (l ++ [x]) = true
  | [], _ => by simp [frozenOnceTerminal]
  | t :: l, h => by
      simp only [List.all_cons, Bool.and_eq_true] at h
      have hrec := frozen_snoc x l h.2
      rw [List.cons_append]
      simp only [frozenOnceTerminal, h.1, Bool.true_or, Bool.true_and]
      exact hrec

lemma hookTrace_all (pp : Bool) (P : Status → Bool)
    (hd : P .downloading = true) (hf : P .finished = true)
    (hp : pp = true → P .post_processing = true) :
    ∀ (events : List HookEvent) (t : Task), P t.status = true →
      ((hookTrace pp t events).all fun s => P s.status) = true
  | [], _, _ => rfl
  | e :: rest, t, ht => by
      have hstep : P (progress_hook pp e t).status = true := by
        cases e with
        | downloading pct f =>
            cases pct with
            | none => exact ht
            | some p => exact hd
        | finished f =>
            cases pp with
            | true => simpa [progress_hook] using hp rfl
            | false => simpa [progress_hook] using hf
      simp only [hookTrace, List.all_cons, Bool.and_eq_true]
      exact ⟨hstep, hookTrace_all pp P hd hf hp rest _ hstep⟩

lemma hook_error (pp : Bool) (e : HookEvent) (t : Task) :
    (progress_hook pp e t).error = t.error := by
  cases e with
  | downloading pct f => cases pct <;> rfl
  | finished f => cases pp <;> rfl

lemma hookTrace_error (pp : Bool) :
    ∀ (events : List HookEvent) (t : Task),
      ((hookTrace pp t events).getLastD t).error = t.error
  | [], _ => rfl
  | e :: rest, t => by
      rw [hookTrace, List.getLastD_cons, hookTrace_error pp rest, hook_error]

/-- Invariant carried along the hook phase: `prev` is the last parsed
percentage (0 initially), `fin` whether a finished event has fired. -/
def HookInv (pp : Bool) (prev : ℚ) (fin : Bool) (t : Task) : Prop :=
  0 ≤ prev ∧ prev ≤ 100 ∧
    (fin = true → t.progress = if pp then (70 : ℚ) else 100) ∧
    (fin = false → t.progress ≤ prev * (7 / 10))

lemma HookInv.progress_le {pp : Bool} {prev : ℚ} {fin : Bool} {t : Task}
    (h : HookInv pp prev fin t) :
    t.progress ≤ 100 ∧ (pp = true → t.progress ≤ 70) := by
  obtain ⟨h0, h1, hft, hff⟩ := h
  have h7 : prev * (7 / 10) ≤ 70 := by nlinarith
  cases fin with
  | true =>
      have ht := hft rfl
      cases pp with
      | true => rw [if_pos rfl] at ht; constructor <;> intros <;> linarith
      | false =>
          rw [if_neg (by simp)] at ht
          exact ⟨le_of_eq ht, fun h => by simp at h⟩
  | false =>
      have ht := hff rfl
      exact ⟨by linarith, fun _ => by linarith⟩

lemma hook_spec (pp : Bool) :
    ∀ (events : List HookEvent) (t : Task) (prev : ℚ) (fin : Bool),
      HookInv pp prev fin t →
      chainFrom prev (percentsOf events) = true →
      noDownloadingAfterFinished events = true →
      (fin = true → hasParsedDownloading events = false) →
      progressMono (t :: hookTrace pp t events) = true ∧
      ∃ prev2 fin2, HookInv pp prev2 fin2 ((hookTrace pp t events).getLastD t)
  | [], t, prev, fin, hinv, _, _, _ => ⟨rfl, prev, fin, hinv⟩
  | .downloading (some p) f :: rest, t, prev, fin, hinv, hchain, hnodl, hfin => by
      have hfinf : fin = false := by
        cases fin with
        | false => rfl
        | true => simpa [hasParsedDownloading] using hfin rfl
      subst hfinf
      simp only [percentsOf, chainFrom, Bool.and_eq_true, decide_eq_true_eq]
        at hchain
      obtain ⟨⟨h1, h2⟩, h3⟩ := hchain
      simp only [noDownloadingAfterFinished] at hnodl
      have hstep : t.progress ≤ (progress_hook pp (.downloading (some p) f) t).progress := by
        have := hinv.2.2.2 rfl
        have hm : prev * (7 / 10) ≤ p * (7 / 10) :=
          mul_le_mul_of_nonneg_right h1 (by norm_num)
        simp only [progress_hook]
        linarith
      have hinv2 : HookInv pp p false (progress_hook pp (.downloading (some p) f) t) :=
        ⟨le_trans hinv.1 h1, h2, fun h => by simp at h, fun _ => le_of_eq rfl⟩
      have hrec := hook_spec pp rest _ p false hinv2 h3 hnodl
        (fun h => by simp at h)
      refine ⟨?_, ?_⟩
      · simp only [hookTrace, progressMono, Bool.and_eq_true, decide_eq_true_eq]
        exact ⟨hstep, hrec.1⟩
      · simpa only [hookTrace, List.getLastD_cons] using hrec.2
  | .downloading none f :: rest, t, prev, fin, hinv, hchain, hnodl, hfin => by
      simp only [percentsOf] at hchain
      simp only [noDownloadingAfterFinished] at hnodl
      have hfin2 : fin = true → hasParsedDownloading rest = false := by
        intro h; simpa [hasParsedDownloading] using hfin h
      have hrec := hook_spec pp rest t prev fin hinv hchain hnodl hfin2
      refine ⟨?_, ?_⟩
      · simp only [hookTrace, progress_hook, progressMono, Bool.and_eq_true,
          decide_eq_true_eq]
        exact ⟨le_refl _, hrec.1⟩
      · simpa only [hookTrace, progress_hook, List.getLastD_cons] using hrec.2
  | .finished f :: rest, t, prev, fin, hinv, hchain, hnodl, hfin => by
      simp only [percentsOf] at hchain
      simp only [noDownloadingAfterFinished, Bool.and_eq_true,
        Bool.not_eq_true'] at hnodl
      obtain ⟨hnp, hnd⟩ := hnodl
      have hprog : (progress_hook pp (.finished f) t).progress =
          if pp then (70 : ℚ) else 100 := by
        cases pp <;> rfl
      have hstep : t.progress ≤ (progress_hook pp (.finished f) t).progress := by
        rw [hprog]
        cases fin with
        | true =>
            rw [hinv.2.2.1 rfl]
        | false =>
            have := hinv.2.2.2 rfl
            have h100 : prev * (7 / 10) ≤ 70 := by nlinarith [hinv.2.1]
            cases pp with
            | true => rw [if_pos rfl]; linarith
            | false => rw [if_neg (by simp)]; linarith
      have hinv2 : HookInv pp prev true (progress_hook pp (.finished f) t) :=
        ⟨hinv.1, hinv.2.1, fun _ => hprog, fun h => by simp at h⟩
      have hrec := hook_spec pp rest _ prev true hinv2 hchain hnd fun _ => hnp
      refine ⟨?_, ?_⟩
      · simp only [hookTrace, progressMono, Bool.and_eq_true, decide_eq_true_eq]
        exact ⟨hstep, hrec.1⟩
      · simpa only [hookTrace, List.getLastD_cons] using hrec.2

end Vid

namespace Vid

lemma batchLoop_last (n : Nat) :
    ∀ (items : List (String × ItemResult)) (i : Nat) (t : Task),
      ((batchLoop n i t items).1).getLastD t = (batchLoop n i t items).2
  | [], _, _ => rfl
  | (url, r) :: rest, i, t => by
      cases r with
      | ok f title =>
          simp only [batchLoop, batchStep, List.cons_append, List.nil_append,
            List.getLastD_cons]
          exact batchLoop_last n rest (i + 1) _
      | err msg =>
          simp only [batchLoop, batchStep, List.cons_append, List.nil_append,
            List.getLastD_cons]
          exact batchLoop_last n rest (i + 1) _

lemma batchLoop_all_status (n : Nat) (P : Status → Bool)
    (hP : ∀ i, i < n → P (.downloadingBatch (i + 1) n) = true) :
    ∀ (items : List (String × ItemResult)) (i : Nat) (t : Task),
      i + items.length = n →
      ((batchLoop n i t items).1.all fun s => P s.status) = true
  | [], _, _, _ => rfl
  | (url, r) :: rest, i, t, hlen => by
      have hi : i < n := by simp only [List.length_cons] at hlen; omega
      have hlen2 : (i + 1) + rest.length = n := by
        simp only [List.length_cons] at hlen; omega
      cases r with
      | ok f title =>
          simp only [batchLoop, batchStep, List.cons_append, List.nil_append,
            List.all_cons, Bool.and_eq_true]
          exact ⟨hP i hi, hP i hi, batchLoop_all_status n P hP rest (i + 1) _ hlen2⟩
      | err msg =>
          simp only [batchLoop, batchStep, List.cons_append, List.nil_append,
            List.all_cons, Bool.and_eq_true]
          exact ⟨hP i hi, hP i hi, batchLoop_all_status n P hP rest (i + 1) _ hlen2⟩

lemma batchLoop_fields (n : Nat) :
    ∀ (items : List (String × ItemResult)) (i : Nat) (t : Task),
      (batchLoop n i t items).2.files = t.files ++ items.map itemEntry ∧
      (batchLoop n i t items).2.errors = t.errors ++ items.filterMap itemError ∧
      (batchLoop n i t items).2.completed_files =
        (match last_success_index i items with
         | some k => some k
         | none => t.completed_files) ∧
      (batchLoop n i t items).2.filename = t.filename ∧
      (batchLoop n i t items).2.total_files = t.total_files
  | [], i, t => by simp [batchLoop, last_success_index]
  | (url, r) :: rest, i, t => by
      cases r with
      | ok f title =>
          have hrec := batchLoop_fields n rest (i + 1)
            { t with completed_files := some (i + 1),
                     progress := (((i + 1 : Nat) : ℚ) / (n : ℚ)) * 100,
                     status := .downloadingBatch (i + 1) n,
                     files := t.files ++ [.completedItem title] }
          obtain ⟨hf, he, hc, hn, ht⟩ := hrec
          refine ⟨?_, ?_, ?_, ?_, ?_⟩
          · simp only [batchLoop, batchStep]
            rw [hf]
            simp [itemEntry, List.append_assoc]
          · simp only [batchLoop, batchStep]
            rw [he]
            simp [itemError]
          · simp only [batchLoop, batchStep]
            rw [hc]
            rcases hlsi : last_success_index (i + 1) rest with _ | k <;>
              simp [last_success_index, hlsi]
          · simp only [batchLoop, batchStep]
            rw [hn]
          · simp only [batchLoop, batchStep]
            rw [ht]
      | err msg =>
          have hrec := batchLoop_fields n rest (i + 1)
            { t with errors := t.errors ++ [{ url := url, message := msg }],
                     status := .downloadingBatch (i + 1) n,
                     files := t.files ++ [.errorItem url msg] }
          obtain ⟨hf, he, hc, hn, ht⟩ := hrec
          refine ⟨?_, ?_, ?_, ?_, ?_⟩
          · simp only [batchLoop, batchStep]
            rw [hf]
            simp [itemEntry, List.append_assoc]
          · simp only [batchLoop, batchStep]
            rw [he]
            simp [itemError, List.append_assoc]
          · simp only [batchLoop, batchStep]
            rw [hc]
            rcases hlsi : last_success_index (i + 1) rest with _ | k <;>
              simp [last_success_index, hlsi]
          · simp only [batchLoop, batchStep]
            rw [hn]
          · simp only [batchLoop, batchStep]
            rw [ht]

lemma filterMap_itemError_length :
    ∀ (items : List (String × ItemResult)),
      (items.filterMap itemError).length = failCount items
  | [] => rfl
  | (url, r) :: rest => by
      cases r with
      | ok f title =>
          simp [List.filterMap_cons, itemError, failCount, List.countP_cons,
            filterMap_itemError_length rest]
      | err msg =>
          simp [List.filterMap_cons, itemError, failCount, List.countP_cons,
            filterMap_itemError_length rest]

end Vid

namespace Vid

lemma progressMono_cons2 (a b : Task) (l : List Task)
    (h1 : a.progress ≤ b.progress) (h2 : progressMono (b :: l) = true) :
    progressMono (a :: b :: l) = true := by
  simp [progressMono, h1, h2]

lemma batchLoop_progress (n : Nat) :
    ∀ (items : List (String × ItemResult)) (i : Nat) (t : Task),
      i + items.length = n →
      t.progress = ((t.completed_files.getD 0 : ℚ) / (n : ℚ)) * 100 →
      t.completed_files.getD 0 ≤ i →
      progressMono (t :: (batchLoop n i t items).1) = true ∧
      ((batchLoop n i t items).1.all fun s =>
        decide (s.progress =
          ((s.completed_files.getD 0 : ℚ) / (n : ℚ)) * 100)) = true ∧
      (batchLoop n i t items).2.progress =
        (((batchLoop n i t items).2.completed_files.getD 0 : ℚ) / (n : ℚ)) * 100 ∧
      (batchLoop n i t items).2.completed_files.getD 0 ≤ n
  | [], i, t, hlen, hform, hle => by
      simp only [List.length_nil, Nat.add_zero] at hlen
      subst hlen
      exact ⟨rfl, rfl, hform, hle⟩
  | (url, r) :: rest, i, t, hlen, hform, hle => by
      have hlen2 : (i + 1) + rest.length = n := by
        simp only [List.length_cons] at hlen; omega
      cases r with
      | ok f title =>
          have hcast : (t.completed_files.getD 0 : ℚ) ≤ ((i + 1 : Nat) : ℚ) := by
            exact_mod_cast le_trans hle (Nat.le_succ i)
          have hstep : t.progress ≤ (((i + 1 : Nat) : ℚ) / (n : ℚ)) * 100 := by
            rw [hform]
            exact mul_le_mul_of_nonneg_right
              (div_le_div_of_nonneg_right hcast (Nat.cast_nonneg n)) (by norm_num)
          have hrec := batchLoop_progress n rest (i + 1)
            { t with status := .downloadingBatch (i + 1) n,
                     completed_files := some (i + 1),
                     progress := (((i + 1 : Nat) : ℚ) / (n : ℚ)) * 100,
                     files := t.files ++ [.completedItem title] }
            hlen2 (by simp) (by simp)
          obtain ⟨hm, ha, hp, hb⟩ := hrec
          refine ⟨?_, ?_, ?_, ?_⟩
          · simp only [batchLoop, batchStep, List.cons_append, List.nil_append]
            exact progressMono_cons2 _ _ _ (le_of_eq rfl)
              (progressMono_cons2 _ _ _ hstep hm)
          · simp only [batchLoop, batchStep, List.cons_append, List.nil_append,
              List.all_cons, Bool.and_eq_true, decide_eq_true_eq]
            exact ⟨by simpa using hform, by simp, ha⟩
          · simp only [batchLoop, batchStep]
            exact hp
          · simp only [batchLoop, batchStep]
            exact hb
      | err msg =>
          have hrec := batchLoop_progress n rest (i + 1)
            { t with status := .downloadingBatch (i + 1) n,
                     errors := t.errors ++ [{ url := url, message := msg }],
                     files := t.files ++ [.errorItem url msg] }
            hlen2 (by simpa using hform) (le_trans hle (Nat.le_succ i))
          obtain ⟨hm, ha, hp, hb⟩ := hrec
          refine ⟨?_, ?_, ?_, ?_⟩
          · simp only [batchLoop, batchStep, List.cons_append, List.nil_append]
            exact progressMono_cons2 _ _ _ (le_of_eq rfl)
              (progressMono_cons2 _ _ _ (le_of_eq rfl) hm)
          · simp only [batchLoop, batchStep, List.cons_append, List.nil_append,
              List.all_cons, Bool.and_eq_true, decide_eq_true_eq]
            exact ⟨by simpa using hform, by simpa using hform, ha⟩
          · simp only [batchLoop, batchStep]
            exact hp
          · simp only [batchLoop, batchStep]
            exact hb

end Vid

namespace Vid

lemma initial_hookInv (st : ℚ) (pp : Bool) :
    HookInv pp 0 false (mkSingleTask st pp) :=
  ⟨le_refl 0, by norm_num, fun h => by simp at h, fun _ => by simp [mkSingleTask]⟩

lemma single_tail_assemble (t0 : Task) (hs : List Task) (x : Task)
    (hm : progressMono (t0 :: hs) = true)
    (hall : ((t0 :: hs).all fun s => !isTerminal s.status) = true)
    (hle : (hs.getLastD t0).progress ≤ x.progress) :
    progressMono ((t0 :: hs) ++ [x]) = true ∧
    frozenOnceTerminal ((t0 :: hs) ++ [x]) = true :=
  ⟨progressMono_snoc x hs t0 hm hle, frozen_snoc x (t0 :: hs) hall⟩

lemma single_tail_assemble2 (t0 : Task) (hs : List Task) (x y : Task)
    (hm : progressMono (t0 :: hs) = true)
    (hall : ((t0 :: hs).all fun s => !isTerminal s.status) = true)
    (hx : (!isTerminal x.status) = true)
    (hle : (hs.getLastD t0).progress ≤ x.progress)
    (hxy : x.progress ≤ y.progress) :
    progressMono ((t0 :: hs) ++ [x, y]) = true ∧
    frozenOnceTerminal ((t0 :: hs) ++ [x, y]) = true := by
  have h1 : progressMono ((t0 :: hs) ++ [x]) = true :=
    progressMono_snoc x hs t0 hm hle
  have hall1 : (((t0 :: hs) ++ [x]).all fun s => !isTerminal s.status) = true := by
    simp only [List.all_append, Bool.and_eq_true]
    exact ⟨hall, by simp [hx]⟩
  have e : (t0 :: hs) ++ [x, y] = ((t0 :: hs) ++ [x]) ++ [y] := by simp
  rw [e]
  have e2 : (t0 :: hs) ++ [x] = t0 :: (hs ++ [x]) := by simp
  constructor
  · rw [e2] at h1 ⊢
    exact progressMono_snoc y (hs ++ [x]) t0 h1
      (by rw [List.getLastD_concat]; exact hxy)
  · exact frozen_snoc y _ hall1

lemma single_hook_facts (pp : Bool) (st : ℚ) (events : List HookEvent)
    (h1 : chainFrom 0 (percentsOf events) = true)
    (h2 : noDownloadingAfterFinished events = true) :
    progressMono (mkSingleTask st pp ::
      hookTrace pp (mkSingleTask st pp) events) = true ∧
    ((mkSingleTask st pp :: hookTrace pp (mkSingleTask st pp) events).all
      fun s => !isTerminal s.status) = true ∧
    ((hookTrace pp (mkSingleTask st pp) events).getLastD
        (mkSingleTask st pp)).progress ≤ 100 ∧
    (pp = true →
      ((hookTrace pp (mkSingleTask st pp) events).getLastD
        (mkSingleTask st pp)).progress ≤ 70) := by
  have hspec := hook_spec pp events (mkSingleTask st pp) 0 false
    (initial_hookInv st pp) h1 h2 (fun h => by simp at h)
  obtain ⟨hmono, prev2, fin2, hinv⟩ := hspec
  have hall := hookTrace_all pp (fun s => !isTerminal s) rfl rfl
    (fun _ => rfl) events (mkSingleTask st pp) rfl
  refine ⟨hmono, ?_, (HookInv.progress_le hinv).1, (HookInv.progress_le hinv).2⟩
  simp only [List.all_cons, Bool.and_eq_true]
  exact ⟨rfl, hall⟩

lemma single_mono_frozen (pp : Option PPAction) (ffmpeg : Bool)
    (engine : PPEngine) (st : ℚ) (fetch : FetchResult)
    (hgood : goodEvents (fetchEvents fetch) = true) :
    progressMono (download_video pp ffmpeg engine st fetch) = true ∧
    frozenOnceTerminal (download_video pp ffmpeg engine st fetch) = true := by
  cases fetch with
  | err events msg =>
      simp only [goodEvents, fetchEvents, Bool.and_eq_true] at hgood
      obtain ⟨hm, hall, hle100, hle70⟩ :=
        single_hook_facts pp.isSome st events hgood.1 hgood.2
      simp only [download_video]
      exact single_tail_assemble _ _ _ hm hall (le_of_eq rfl)
  | ok events filename title =>
      simp only [goodEvents, fetchEvents, Bool.and_eq_true] at hgood
      cases pp with
      | none =>
          obtain ⟨hm, hall, hle100, hle70⟩ :=
            single_hook_facts false st events hgood.1 hgood.2
          simp only [download_video]
          exact single_tail_assemble _ _ _ hm hall hle100
      | some action =>
          obtain ⟨hm, hall, hle100, hle70⟩ :=
            single_hook_facts true st events hgood.1 hgood.2
          cases ffmpeg with
          | false =>
              simp only [download_video]
              exact single_tail_assemble _ _ _ hm hall hle100
          | true =>
              simp only [download_video]
              refine single_tail_assemble2 _ _ _ _ hm hall rfl ?_ (by norm_num)
              exact le_trans (hle70 rfl) (by norm_num)

lemma batch_mono_frozen (items : List (String × ItemResult)) (st : ℚ)
    (pp : Bool) :
    progressMono (batch_download items st pp) = true ∧
    frozenOnceTerminal (batch_download items st pp) = true := by
  have hlen : 0 + items.length = items.length := Nat.zero_add _
  have hprog := batchLoop_progress items.length items 0
    (mkBatchTask st pp items.length) hlen (by simp [mkBatchTask])
    (by simp [mkBatchTask])
  obtain ⟨hm, _, hp, hb⟩ := hprog
  have hlast := batchLoop_last items.length items 0 (mkBatchTask st pp items.length)
  have hall := batchLoop_all_status items.length (fun s => !isTerminal s)
    (fun _ _ => rfl) items 0 (mkBatchTask st pp items.length) hlen
  have hdiv : (((batchLoop items.length 0 (mkBatchTask st pp items.length)
      items).2.completed_files.getD 0 : ℚ) / (items.length : ℚ)) * 100 ≤ 100 := by
    rcases Nat.eq_zero_or_pos items.length with hn | hn
    · rw [hn]
      norm_num
    · have hdl : (((batchLoop items.length 0 (mkBatchTask st pp items.length)
          items).2.completed_files.getD 0 : ℚ) / (items.length : ℚ)) ≤ 1 :=
        (div_le_one (by exact_mod_cast hn)).mpr (by exact_mod_cast hb)
      nlinarith
  constructor
  · simp only [batch_download]
    refine progressMono_snoc _ _ _ hm ?_
    rw [hlast, hp]
    exact hdiv
  · simp only [batch_download]
    refine frozen_snoc _ _ ?_
    simp only [List.all_cons, Bool.and_eq_true]
    exact ⟨rfl, hall⟩

lemma frozen_snoc2 (x y : Task) (l : List Task)
    (hall : (l.all fun s => !isTerminal s.status) = true)
    (hx : (!isTerminal x.status) = true) :
    frozenOnceTerminal (l ++ [x, y]) = true := by
  have e : l ++ [x, y] = (l ++ [x]) ++ [y] := by simp
  rw [e]
  refine frozen_snoc y _ ?_
  simp only [List.all_append, Bool.and_eq_true]
  exact ⟨hall, by simp [hx]⟩

lemma single_frozen (pp : Option PPAction) (ffmpeg : Bool) (engine : PPEngine)
    (st : ℚ) (fetch : FetchResult) :
    frozenOnceTerminal (download_video pp ffmpeg engine st fetch) = true := by
  have hall : ∀ (b : Bool) (events : List HookEvent),
      ((mkSingleTask st b :: hookTrace b (mkSingleTask st b) events).all
        fun s => !isTerminal s.status) = true := by
    intro b events
    simp only [List.all_cons, Bool.and_eq_true]
    exact ⟨rfl, hookTrace_all b (fun s => !isTerminal s) rfl rfl
      (fun _ => rfl) events _ rfl⟩
  cases fetch with
  | err events msg =>
      simp only [download_video]
      exact frozen_snoc _ _ (hall _ events)
  | ok events filename title =>
      cases pp with
      | none =>
          simp only [download_video]
          exact frozen_snoc _ _ (hall _ events)
      | some action =>
          cases ffmpeg with
          | false =>
              simp only [download_video]
              exact frozen_snoc _ _ (hall _ events)
          | true =>
              simp only [download_video]
              exact frozen_snoc2 _ _ _ (hall _ events) rfl

/-- Claim C1 (amended): provided the fetch engine reports its percentages
non-decreasingly within [0, 100] and does not fire a further parseable
downloading report after a finished report, every task's progress is
monotonically non-decreasing along its whole registry-state sequence; and
unconditionally — for every run, however the engine behaves — once a state
is terminal (`completed` or `error`) it is the last one, so progress,
result file location and error fields are never changed again.  Without
that proviso the code does not enforce monotonicity (see the
counterexample: the hook overwrites progress with whatever percentage the
engine reports next). -/
theorem c1_progress_monotone_and_frozen (run : Run) :
    frozenOnceTerminal (traceOf run) = true ∧
    (goodRun run = true → progressMono (traceOf run) = true) := by
  cases run with
  | single pp ffmpeg engine st fetch =>
      exact ⟨single_frozen pp ffmpeg engine st fetch,
        fun h => (single_mono_frozen pp ffmpeg engine st fetch h).1⟩
  | batch items st pp =>
      exact ⟨(batch_mono_frozen items st pp).2,
        fun _ => (batch_mono_frozen items st pp).1⟩

/-- Claim C1 (counterexample): a fetch whose hook reports 50% and then 30%
drives the task's progress from 35 down to 21 while the status is the
non-terminal `downloading`, so progress is not monotonically non-decreasing
while the status is non-terminal. -/
theorem c1_counterexample :
    (download_video none true (fun _ => Except.error "no engine") 0
        (.ok [.downloading (some 50) "v.mp4", .downloading (some 30) "v.mp4"]
          "v.mp4" "title")).map (fun t => (statusString t.status, t.progress)) =
      [("starting", 0), ("downloading", 35), ("downloading", 21),
        ("completed", 100)] ∧
    progressMono (download_video none true (fun _ => Except.error "no engine") 0
        (.ok [.downloading (some 50) "v.mp4", .downloading (some 30) "v.mp4"]
          "v.mp4" "title")) = false := by
  constructor
  · norm_num [download_video, mkSingleTask, hookTrace, progress_hook, statusString]
  · norm_num [download_video, mkSingleTask, hookTrace, progress_hook, progressMono]

/-- Claim C1 (witness): the amended theorem applied to a concrete
well-behaved run, with the engine hypothesis of the monotonicity half
discharged there. -/
theorem c1_witness :
    goodRun (.single none true (fun _ => Except.error "no engine") 0
      (.ok [.downloading (some 10) "v.mp4", .finished "v.mp4"]
        "v.mp4" "title")) = true ∧
    (frozenOnceTerminal (traceOf (.single none true (fun _ => Except.error "no engine") 0
      (.ok [.downloading (some 10) "v.mp4", .finished "v.mp4"]
        "v.mp4" "title"))) = true ∧
    progressMono (traceOf (.single none true (fun _ => Except.error "no engine") 0
      (.ok [.downloading (some 10) "v.mp4", .finished "v.mp4"]
        "v.mp4" "title"))) = true) :=
  ⟨by decide,
    (c1_progress_monotone_and_frozen (.single none true
      (fun _ => Except.error "no engine") 0
      (.ok [.downloading (some 10) "v.mp4", .finished "v.mp4"]
        "v.mp4" "title"))).1,
    (c1_progress_monotone_and_frozen (.single none true
      (fun _ => Except.error "no engine") 0
      (.ok [.downloading (some 10) "v.mp4", .finished "v.mp4"]
        "v.mp4" "title"))).2 (by decide)⟩

end Vid

namespace Vid

/-- Claim C2 (counterexample): a batch of one URL whose single item fails
ends with status `completed` and error/item lists of length 1, but its
`completed_files` field is 0, not the total 1: `completed_files` is only
assigned on a successful item (src/main.py line 524). -/
theorem c2_counterexample :
    (batch_download [("u1", .err "boom")] 0 false).map (fun t =>
      (statusString t.status, t.progress, t.completed_files, t.total_files,
        t.errors.length, t.files.length)) =
      [("starting", 0, some 0, some 1, 0, 0),
       ("downloading 1/1", 0, some 0, some 1, 0, 0),
       ("downloading 1/1", 0, some 0, some 1, 1, 1),
       ("completed", 100, some 0, some 1, 1, 1)] ∧
    (some 0 : Option Nat) ≠ some 1 := by
  constructor
  · norm_num [batch_download, mkBatchTask, batchLoop, batchStep, statusString]
    decide
  · simp

/-- Claim C2 (amended): after a batch of N items of which M fail, the final
batch state has status `completed`, progress 100, an item list of length N
and an error list of length M (no failure aborts the iteration), and every
state before the final one satisfies
`progress = completed_files / total * 100`; however `completed_files` ends
at the 1-based index of the last successful item (0 if every item failed),
which equals N only when the last item succeeds. -/
theorem c2_batch_final_state (items : List (String × ItemResult)) (st : ℚ)
    (pp : Bool) :
    ((batch_download items st pp).getLastD emptyTask).status = Status.completed ∧
    ((batch_download items st pp).getLastD emptyTask).progress = 100 ∧
    ((batch_download items st pp).getLastD emptyTask).files.length =
      items.length ∧
    ((batch_download items st pp).getLastD emptyTask).errors.length =
      failCount items ∧
    ((batch_download items st pp).getLastD emptyTask).completed_files =
      some ((last_success_index 0 items).getD 0) ∧
    ((batch_download items st pp).dropLast.all fun s =>
      decide (s.progress =
        ((s.completed_files.getD 0 : ℚ) / (items.length : ℚ)) * 100)) = true := by
  obtain ⟨hf, he, hc, _, _⟩ :=
    batchLoop_fields items.length items 0 (mkBatchTask st pp items.length)
  obtain ⟨_, hallP, _, _⟩ :=
    batchLoop_progress items.length items 0 (mkBatchTask st pp items.length)
      (Nat.zero_add _) (by simp [mkBatchTask]) (by simp [mkBatchTask])
  refine ⟨?_, ?_, ?_, ?_, ?_, ?_⟩
  · simp only [batch_download, List.getLastD_concat]
  · simp only [batch_download, List.getLastD_concat]
  · simp only [batch_download, List.getLastD_concat]
    rw [hf]
    simp [mkBatchTask]
  · simp only [batch_download, List.getLastD_concat]
    rw [he]
    simp [mkBatchTask, filterMap_itemError_length]
  · simp only [batch_download, List.getLastD_concat]
    rw [hc]
    rcases hlsi : last_success_index 0 items with _ | k <;> simp [mkBatchTask]
  · simp only [batch_download, List.dropLast_concat, List.all_cons,
      Bool.and_eq_true]
    refine ⟨by simp [mkBatchTask], hallP⟩

/-- Claim C3 (counterexample): for a task with no post-processing requested,
a fetch-phase report of 50% sets the externally visible progress to 35, not
50: the hook multiplies by 0.7 unconditionally (src/main.py line 394), so
the fetch weight is not 1.0 when post-processing is absent. -/
theorem c3_counterexample :
    (progress_hook false (.downloading (some 50) "v.mp4")
      (mkSingleTask 0 false)).progress = 35 ∧ (35 : ℚ) ≠ 50 := by
  constructor
  · norm_num [progress_hook]
  · norm_num

/-- Claim C3 (amended): every parseable fetch-phase percentage report p sets
the externally visible task progress to p * 0.7, regardless of whether
post-processing was requested. -/
theorem c3_fetch_progress_weight (pp : Bool) (p : ℚ) (f : String) (t : Task) :
    (progress_hook pp (.downloading (some p) f) t).progress = p * (7 / 10) :=
  rfl

end Vid

namespace Vid

lemma all_imp (p q : Task → Bool) (h : ∀ t, p t = true → q t = true) :
    ∀ (l : List Task), l.all p = true → l.all q = true := by
  intro l hl
  rw [List.all_eq_true] at hl ⊢
  exact fun t ht => h t (hl t ht)

lemma singleStatus_mem (s : Status) (h : singleStatusOk s = true) :
    statusString s ∈
      ["starting", "downloading", "post_processing", "finished",
       "completed", "error"] := by
  cases s
  case downloadingBatch i n => simp [singleStatusOk] at h
  all_goals simp [statusString]

lemma single_trace_status (pp : Option PPAction) (ffmpeg : Bool)
    (engine : PPEngine) (st : ℚ) (fetch : FetchResult) :
    ((download_video pp ffmpeg engine st fetch).all fun t =>
      singleStatusOk t.status) = true := by
  have hhook : ∀ (b : Bool) (events : List HookEvent),
      ((hookTrace b (mkSingleTask st b) events).all fun s =>
        singleStatusOk s.status) = true :=
    fun b events =>
      hookTrace_all b singleStatusOk rfl rfl (fun _ => rfl) events _ rfl
  cases fetch with
  | err events msg =>
      simp only [download_video, List.cons_append, List.all_cons,
        List.all_append, Bool.and_eq_true]
      exact ⟨rfl, hhook _ events, by simp [singleStatusOk]⟩
  | ok events filename title =>
      cases pp with
      | none =>
          simp only [download_video, List.cons_append, List.all_cons,
            List.all_append, Bool.and_eq_true]
          exact ⟨rfl, hhook _ events, by simp [singleStatusOk]⟩
      | some action =>
          cases ffmpeg with
          | false =>
              simp only [download_video, Bool.false_eq_true, if_false,
                List.cons_append, List.all_cons, List.all_append,
                Bool.and_eq_true]
              exact ⟨rfl, hhook _ events, by simp [singleStatusOk]⟩
          | true =>
              simp only [download_video, if_true, List.cons_append,
                List.all_cons, List.all_append, Bool.and_eq_true]
              exact ⟨rfl, hhook _ events, by simp [singleStatusOk],
                by simp [singleStatusOk]⟩

lemma single_trace_no_pp_status (ffmpeg : Bool) (engine : PPEngine) (st : ℚ)
    (fetch : FetchResult) :
    ((download_video none ffmpeg engine st fetch).all fun t =>
      decide (t.status ≠ Status.post_processing)) = true := by
  have hhook : ∀ (events : List HookEvent),
      ((hookTrace false (mkSingleTask st false) events).all fun s =>
        decide (s.status ≠ Status.post_processing)) = true :=
    fun events =>
      hookTrace_all false (fun s => decide (s ≠ Status.post_processing))
        (by decide) (by decide) (fun h => by simp at h) events _
        (by simp [mkSingleTask])
  cases fetch with
  | err events msg =>
      simp only [download_video, List.cons_append, List.all_cons,
        List.all_append, Bool.and_eq_true]
      exact ⟨by simp [mkSingleTask], hhook events, by simp⟩
  | ok events filename title =>
      simp only [download_video, List.cons_append, List.all_cons,
        List.all_append, Bool.and_eq_true]
      exact ⟨by simp [mkSingleTask], hhook events, by simp⟩

lemma batch_trace_all_status (items : List (String × ItemResult)) (st : ℚ)
    (pp : Bool) (P : Status → Bool)
    (hstart : P .starting = true) (hdone : P .completed = true)
    (hP : ∀ i, i < items.length →
      P (.downloadingBatch (i + 1) items.length) = true) :
    ((batch_download items st pp).all fun t => P t.status) = true := by
  have hloop := batchLoop_all_status items.length P hP items 0
    (mkBatchTask st pp items.length) (Nat.zero_add _)
  simp only [batch_download, List.cons_append, List.all_cons, List.all_append,
    Bool.and_eq_true]
  exact ⟨hstart, hloop, by simp [hdone]⟩

/-- Claim C4 (counterexample): a task without post-processing whose fetch
reports completion holds the status string `finished` (written by the hook
at src/main.py lines 404-405) before `download_video` later marks it
`completed`: `finished` is outside the claimed status set
starting/downloading/post_processing/completed/error, so both the claimed
vocabulary and the claimed transition order fail. -/
theorem c4_counterexample :
    (download_video none true (fun _ => Except.error "no engine") 0
        (.ok [.finished "v.mp4"] "v.mp4" "title")).map
      (fun t => statusString t.status) =
      ["starting", "finished", "completed"] ∧
    ("finished" : String) ∉
      ["starting", "downloading", "post_processing", "completed", "error"] := by
  constructor
  · norm_num [download_video, mkSingleTask, hookTrace, progress_hook,
      statusString]
  · decide

/-- Claim C4 (amended): every status value a task ever holds is one of
`starting`, `downloading`, `post_processing`, `finished`, `completed`,
`error` for single tasks, and one of `starting`, `downloading i/n`
(1 ≤ i ≤ n) or `completed` for batch tasks; and a task submitted with
`post_processing = false` never holds status `post_processing`.  (The
claimed strict transition order does not hold as stated, since `finished`
is interposed between fetch completion and task completion.) -/
theorem c4_status_values (run : Run) :
    ((traceOf run).all fun t =>
      decide (statusString t.status ∈ allowedStatusStrings run)) = true ∧
    (ppRequested run ||
      (traceOf run).all fun t =>
        decide (t.status ≠ Status.post_processing)) = true := by
  cases run with
  | single pp ffmpeg engine st fetch =>
      constructor
      · refine all_imp _ _ ?_ _ (single_trace_status pp ffmpeg engine st fetch)
        intro t ht
        simp only [decide_eq_true_eq]
        exact singleStatus_mem t.status ht
      · cases pp with
        | some action => simp [ppRequested]
        | none =>
            simp only [ppRequested, Option.isSome_none, Bool.false_or, traceOf]
            exact single_trace_no_pp_status ffmpeg engine st fetch
  | batch items st pp =>
      constructor
      · simp only [traceOf]
        refine batch_trace_all_status items st pp
          (fun s => decide
            (statusString s ∈ allowedStatusStrings (Run.batch items st pp)))
          ?_ ?_ ?_
        · simp [statusString, allowedStatusStrings]
        · simp [statusString, allowedStatusStrings]
        · intro i hi
          simp only [decide_eq_true_eq, allowedStatusStrings, statusString]
          exact List.mem_cons.mpr (Or.inr (List.mem_cons.mpr (Or.inr
            (List.mem_map.mpr ⟨i, List.mem_range.mpr hi, rfl⟩))))
      · have hall := batch_trace_all_status items st pp
          (fun s => decide (s ≠ Status.post_processing)) (by decide) (by decide)
          (fun i hi => by simp)
        simp only [traceOf, hall, Bool.or_true]

end Vid

namespace Vid

lemma getLastD_append_two (l : List Task) (a b d : Task) :
    (l ++ [a, b]).getLastD d = b := by
  rw [show l ++ [a, b] = (l ++ [a]) ++ [b] by simp, List.getLastD_concat]

/-- Claim C5 (confirmed): with post-processing requested and the transcoding
engine available, if the fetch succeeds but the dispatched engine operation
raises, the task still ends with status `completed`, progress 100, the
originally fetched file as its result, and no recorded error: the exception
is swallowed inside `_apply_post_processing` and the original filename
returned (src/main.py lines 494-496). -/
theorem c5_post_process_failure_falls_back (a : PPAction) (engine : PPEngine)
    (msg : String) (hfail : engine a = Except.error msg)
    (events : List HookEvent) (fn title : String) (st : ℚ) :
    ((download_video (some a) true engine st (.ok events fn title)).getLastD
      emptyTask).status = Status.completed ∧
    ((download_video (some a) true engine st (.ok events fn title)).getLastD
      emptyTask).progress = 100 ∧
    ((download_video (some a) true engine st (.ok events fn title)).getLastD
      emptyTask).filename = some fn ∧
    ((download_video (some a) true engine st (.ok events fn title)).getLastD
      emptyTask).error = none := by
  have happ : apply_post_processing fn a engine = fn := by
    cases a <;> simp [apply_post_processing, hfail]
  have herr : ((hookTrace (some a).isSome (mkSingleTask st (some a).isSome)
      events).getLastD (mkSingleTask st (some a).isSome)).error = none := by
    rw [hookTrace_error]; rfl
  simp only [download_video, if_true, getLastD_append_two]
  refine ⟨trivial, trivial, ?_, herr⟩
  simp [happ]

/-- Claim C5 (witness): the theorem applied to a concrete run whose engine
always raises. -/
theorem c5_witness :
    ((fun _ : PPAction =>
        (Except.error "ffmpeg crashed" : Except String String)) PPAction.compress =
      Except.error "ffmpeg crashed") ∧
    (((download_video (some .compress) true
        (fun _ => Except.error "ffmpeg crashed") 0
        (.ok [.finished "v.mp4"] "v.mp4" "title")).getLastD emptyTask).status =
      Status.completed ∧
    ((download_video (some .compress) true
        (fun _ => Except.error "ffmpeg crashed") 0
        (.ok [.finished "v.mp4"] "v.mp4" "title")).getLastD emptyTask).progress =
      100 ∧
    ((download_video (some .compress) true
        (fun _ => Except.error "ffmpeg crashed") 0
        (.ok [.finished "v.mp4"] "v.mp4" "title")).getLastD emptyTask).filename =
      some "v.mp4" ∧
    ((download_video (some .compress) true
        (fun _ => Except.error "ffmpeg crashed") 0
        (.ok [.finished "v.mp4"] "v.mp4" "title")).getLastD emptyTask).error =
      none) :=
  ⟨rfl, c5_post_process_failure_falls_back .compress
    (fun _ => Except.error "ffmpeg crashed") "ffmpeg crashed" rfl
    [.finished "v.mp4"] "v.mp4" "title" 0⟩

/-- Claim C6 (confirmed): with a post-process configuration but the
transcoding engine unavailable, `_apply_post_processing` is never reached
(the guard at src/main.py line 435 fails) and the task still ends with
status `completed`, progress 100, the originally fetched file path as its
result, and no recorded error. -/
theorem c6_engine_unavailable_no_op (a : PPAction) (engine : PPEngine)
    (events : List HookEvent) (fn title : String) (st : ℚ) :
    post_process_attempted (some a) false (.ok events fn title) = false ∧
    ((download_video (some a) false engine st (.ok events fn title)).getLastD
      emptyTask).status = Status.completed ∧
    ((download_video (some a) false engine st (.ok events fn title)).getLastD
      emptyTask).progress = 100 ∧
    ((download_video (some a) false engine st (.ok events fn title)).getLastD
      emptyTask).filename = some fn ∧
    ((download_video (some a) false engine st (.ok events fn title)).getLastD
      emptyTask).error = none := by
  have herr : ((hookTrace (some a).isSome (mkSingleTask st (some a).isSome)
      events).getLastD (mkSingleTask st (some a).isSome)).error = none := by
    rw [hookTrace_error]; rfl
  simp only [download_video, post_process_attempted, Bool.false_eq_true,
    if_false, List.getLastD_concat]
  exact ⟨by simp, trivial, trivial, trivial, herr⟩

end Vid

namespace Vid

lemma lookupTask_removeTask (tasks : List (String × Task)) (tid : String) :
    lookupTask (removeTask tasks tid) tid = none := by
  simp only [lookupTask, removeTask]
  rcases h : (tasks.filter fun p => !(p.1 == tid)).find? (fun p => p.1 == tid)
    with _ | p
  · rw [h]
  · have h1 := List.find?_some h
    have h2 := (List.mem_filter.mp (List.mem_of_find?_eq_some h)).2
    rw [h1] at h2
    simp at h2

/-- A completed task created at time 0, read at time 7200: one hour past the
retention window. -/
def expiredCompletedTask : Task :=
  { mkSingleTask 0 false with
    status := .completed
    progress := 100
    filename := some "v.mp4" }

/-- Claim C7 (counterexample): the file-retrieval read
`download_completed_file` is a single-task read, yet for a terminal task
created more than one hour before now it neither returns a not-found error
nor deletes the task: it serves the file whenever it still exists on disk
(src/main.py lines 879-898 perform no expiry check).  Only the progress
poll expires tasks. -/
theorem c7_counterexample :
    download_completed_file [("tid", expiredCompletedTask)] ["v.mp4"] "tid" =
      ([("tid", expiredCompletedTask)], FileResponse.sendFile "v.mp4") ∧
    isTerminal expiredCompletedTask.status = true ∧
    (7200 : ℚ) - expiredCompletedTask.start_time > 3600 := by
  refine ⟨by decide, rfl, by norm_num [expiredCompletedTask, mkSingleTask]⟩

/-- Claim C7 (amended): a progress poll of a terminal task whose creation
time is more than 3600 seconds before now returns a 404 (`Task expired`)
and deletes the task, and a second poll of the same identifier returns a
404 (`Task not found`); the file-retrieval read, however, performs no
expiry (see the counterexample). -/
theorem c7_expired_terminal_poll (reg : List (String × Task)) (tid : String)
    (t : Task) (now : ℚ) (h1 : lookupTask reg tid = some t)
    (h2 : isTerminal t.status = true) (h3 : now - t.start_time > 3600) :
    get_download_progress reg tid now =
      (removeTask reg tid, ProgressResponse.taskExpired404) ∧
    get_download_progress (removeTask reg tid) tid now =
      (removeTask reg tid, ProgressResponse.taskNotFound404) := by
  constructor
  · simp only [get_download_progress, h1]
    rw [if_pos]
    simp [h2, h3]
  · simp only [get_download_progress, lookupTask_removeTask]

/-- Claim C7 (witness): the amended theorem applied to a concrete expired
task polled at time 7200. -/
theorem c7_witness :
    lookupTask [("tid", expiredCompletedTask)] "tid" =
      some expiredCompletedTask ∧
    isTerminal expiredCompletedTask.status = true ∧
    ((7200 : ℚ) - expiredCompletedTask.start_time > 3600) ∧
    (get_download_progress [("tid", expiredCompletedTask)] "tid" 7200 =
      (removeTask [("tid", expiredCompletedTask)] "tid",
        ProgressResponse.taskExpired404) ∧
    get_download_progress (removeTask [("tid", expiredCompletedTask)] "tid")
        "tid" 7200 =
      (removeTask [("tid", expiredCompletedTask)] "tid",
        ProgressResponse.taskNotFound404)) :=
  ⟨rfl, rfl, by norm_num [expiredCompletedTask, mkSingleTask],
    c7_expired_terminal_poll [("tid", expiredCompletedTask)] "tid"
      expiredCompletedTask 7200 rfl rfl
      (by norm_num [expiredCompletedTask, mkSingleTask])⟩

/-- Claim C8 (counterexample): for a task without post-processing, the
fetch-completion hook sets progress 100 but status `finished`, not
`completed` (src/main.py lines 404-405); `completed` is only written later
by `download_video` itself (line 450), so fetch completion does not
directly set the status to `completed`. -/
theorem c8_counterexample :
    (download_video none true (fun _ => Except.error "no engine") 0
        (.ok [.finished "v.mp4"] "v.mp4" "title")).map
      (fun t => (statusString t.status, t.progress)) =
      [("starting", 0), ("finished", 100), ("completed", 100)] ∧
    Status.finished ≠ Status.completed := by
  constructor
  · norm_num [download_video, mkSingleTask, hookTrace, progress_hook,
      statusString]
  · decide

/-- Claim C8 (amended): with post-processing requested, the
fetch-completion hook sets progress to exactly 70 and status to
`post_processing`, and the task finishes at progress 100 with status
`completed` (after an intermediate 75 written when dispatch starts);
without post-processing, the fetch-completion hook sets progress 100 and
status `finished`, and the task is marked `completed` (still at progress
100) only when the download call finalizes. -/
theorem c8_phase_checkpoints (t : Task) (f : String) (a : PPAction)
    (engine : PPEngine) (b : Bool) (st : ℚ) (events : List HookEvent)
    (fn title : String) :
    ((progress_hook true (.finished f) t).status = Status.post_processing ∧
      (progress_hook true (.finished f) t).progress = 70) ∧
    ((progress_hook false (.finished f) t).status = Status.finished ∧
      (progress_hook false (.finished f) t).progress = 100) ∧
    (((download_video (some a) true engine st (.ok events fn title)).getLastD
        emptyTask).status = Status.completed ∧
      ((download_video (some a) true engine st (.ok events fn title)).getLastD
        emptyTask).progress = 100) ∧
    (((download_video none b engine st (.ok events fn title)).getLastD
        emptyTask).status = Status.completed ∧
      ((download_video none b engine st (.ok events fn title)).getLastD
        emptyTask).progress = 100) := by
  refine ⟨⟨rfl, rfl⟩, ⟨rfl, rfl⟩, ?_, ?_⟩
  · simp only [download_video, if_true, getLastD_append_two]
    exact ⟨by trivial, by trivial⟩
  · simp only [download_video, List.getLastD_concat]
    exact ⟨by trivial, by trivial⟩

lemma batchLoop_all_filename (n : Nat) :
    ∀ (items : List (String × ItemResult)) (i : Nat) (t : Task),
      ((batchLoop n i t items).1.all fun s =>
        decide (s.filename = t.filename)) = true
  | [], _, _ => rfl
  | (url, r) :: rest, i, t => by
      cases r with
      | ok f title =>
          simp only [batchLoop, batchStep, List.cons_append, List.nil_append,
            List.all_cons, Bool.and_eq_true]
          exact ⟨by simp, by simp, batchLoop_all_filename n rest (i + 1) _⟩
      | err msg =>
          simp only [batchLoop, batchStep, List.cons_append, List.nil_append,
            List.all_cons, Bool.and_eq_true]
          exact ⟨by simp, by simp, batchLoop_all_filename n rest (i + 1) _⟩

lemma lookupTask_singleton (tid : String) (t : Task) :
    lookupTask [(tid, t)] tid = some t := by
  simp [lookupTask, List.find?]

lemma download_completed_file_no_filename (tid : String) (t : Task)
    (onDisk : List String) (hst : t.status = Status.completed)
    (hfn : t.filename = none) :
    download_completed_file [(tid, t)] onDisk tid =
      ([(tid, t)], FileResponse.fileNotFound404) := by
  simp [download_completed_file, lookupTask_singleton, hst, hfn]

/-- Claim C9 (confirmed): a batch task never carries a `filename` field at
any point of its life, so retrieving a file by the batch task's identifier
answers `File not found` (404) even once the batch is `completed`:
`task.get('filename')` yields nothing (src/main.py lines 890-892). -/
theorem c9_batch_file_retrieval_not_found (items : List (String × ItemResult))
    (st : ℚ) (pp : Bool) (onDisk : List String) (tid : String) :
    ((batch_download items st pp).all fun t => decide (t.filename = none)) =
      true ∧
    download_completed_file
        [(tid, (batch_download items st pp).getLastD emptyTask)] onDisk tid =
      ([(tid, (batch_download items st pp).getLastD emptyTask)],
        FileResponse.fileNotFound404) := by
  obtain ⟨_, _, _, hn, _⟩ :=
    batchLoop_fields items.length items 0 (mkBatchTask st pp items.length)
  have hn2 : (batchLoop items.length 0 (mkBatchTask st pp items.length)
      items).2.filename = none := by rw [hn]; rfl
  have hlast : (batch_download items st pp).getLastD emptyTask =
      { (batchLoop items.length 0 (mkBatchTask st pp items.length) items).2
        with status := Status.completed, progress := 100 } := by
    simp only [batch_download, List.getLastD_concat]
  constructor
  · simp only [batch_download, List.cons_append, List.all_cons,
      List.all_append, Bool.and_eq_true]
    refine ⟨by simp [mkBatchTask], ?_, ?_⟩
    · exact batchLoop_all_filename items.length items 0 _
    · simp only [List.all_cons, List.all_nil, Bool.and_true,
        decide_eq_true_eq]
      exact ⟨hn2, trivial⟩
  · rw [hlast]
    exact download_completed_file_no_filename tid _ onDisk rfl hn2

lemma hookTrace_pp_checkpoint :
    ∀ (events : List HookEvent) (t : Task) (f : String),
      HookEvent.finished f ∈ events →
      ((hookTrace true t events).any fun s =>
        decide (s.status = Status.post_processing ∧ s.progress = 70)) = true
  | [], _, _, h => by simp at h
  | e :: rest, t, f, h => by
      simp only [hookTrace, List.any_cons, Bool.or_eq_true]
      rcases List.mem_cons.mp h with he | hrest
      · left
        rw [← he]
        simp [progress_hook]
      · right
        exact hookTrace_pp_checkpoint rest _ f hrest

/-- Claim C10 (confirmed): the fetch-completion hook switches the task to
status `post_processing` at progress 70 based only on the presence of the
post-process configuration (src/main.py lines 399-402), so even with the
transcoding engine unavailable — when no post-process operation is
attempted — the task transiently holds `post_processing` before ending
`completed`. -/
theorem c10_pp_status_reached_without_engine (a : PPAction) (engine : PPEngine)
    (st : ℚ) (events : List HookEvent) (fn title f : String)
    (h : HookEvent.finished f ∈ events) :
    ((download_video (some a) false engine st (.ok events fn title)).any
      fun s =>
        decide (s.status = Status.post_processing ∧ s.progress = 70)) = true ∧
    ((download_video (some a) false engine st (.ok events fn title)).getLastD
      emptyTask).status = Status.completed ∧
    post_process_attempted (some a) false (.ok events fn title) = false := by
  refine ⟨?_, ?_, by simp [post_process_attempted]⟩
  · have hc := hookTrace_pp_checkpoint events (mkSingleTask st (some a).isSome)
      f h
    simp only [download_video, Bool.false_eq_true, if_false, List.cons_append,
      List.any_cons, List.any_append, Bool.or_eq_true]
    refine Or.inr (Or.inl ?_)
    exact hc
  · simp only [download_video, Bool.false_eq_true, if_false,
      List.getLastD_concat]

/-- Claim C10 (witness): the theorem applied to a concrete run with the
engine unavailable whose fetch fires a finished report. -/
theorem c10_witness :
    HookEvent.finished "v.mp4" ∈ [HookEvent.finished "v.mp4"] ∧
    (((download_video (some .compress) false (fun _ => Except.error "x") 0
        (.ok [.finished "v.mp4"] "v.mp4" "title")).any fun s =>
        decide (s.status = Status.post_processing ∧ s.progress = 70)) = true ∧
    ((download_video (some .compress) false (fun _ => Except.error "x") 0
        (.ok [.finished "v.mp4"] "v.mp4" "title")).getLastD
      emptyTask).status = Status.completed ∧
    post_process_attempted (some .compress) false
        (.ok [.finished "v.mp4"] "v.mp4" "title") = false) :=
  ⟨by decide, c10_pp_status_reached_without_engine .compress
    (fun _ => Except.error "x") 0 [.finished "v.mp4"] "v.mp4" "title" "v.mp4"
    (by decide)⟩

end Vid
